import Mathlib

/-!
Signature selection and template resolution: a shallow embedding of
`core/signature.go`.

* Go strings are Lean strings; the string functions of the Go standard
  library that the file calls are written out on character lists.
* A Go `map[string]string` is an association list with distinct keys, kept in
  the order in which a `range` loop visits it.  Maps are allocated (non-nil).
* The collaborators that live outside the file (the `text/template` engine,
  user-supplied regular expressions, the filesystem helpers of `utils`, the
  signature store of `database`) are fields of the structures `Engine` and
  `Sys`; the variable executor `RunVariables` is a parameter.
* A function that can stop with a run-time panic returns an `Option`; `none`
  is the panic.
-/

namespace Jaeles

/-! ## The Go standard library on strings -/

namespace strings

/-- Whether the list `p` is an initial segment of the list `s`. -/
def startsWith : List Char → List Char → Bool
  | [], _ => true
  | _ :: _, [] => false
  | a :: p, b :: s => if a = b then startsWith p s else false

/-- Whether `sub` occurs in `s` as a contiguous block. -/
def hasSub (sub : List Char) : List Char → Bool
  | [] => startsWith sub []
  | c :: s => startsWith sub (c :: s) || hasSub sub s

/-- Go `strings.Contains`. -/
def Contains (s sub : String) : Bool := hasSub sub.data s.data

/-- Go `strings.HasSuffix`. -/
def HasSuffix (s suffix : String) : Bool := startsWith suffix.data.reverse s.data.reverse

/-- Go `unicode.IsSpace`: the Latin-1 spaces and the code points with the
Unicode White_Space property. -/
def isSpace (c : Char) : Bool :=
  let n := c.toNat
  (9 ≤ n && n ≤ 13) || n == 32 || n == 0x85 || n == 0xA0 || n == 0x1680 ||
  (0x2000 ≤ n && n ≤ 0x200A) || n == 0x2028 || n == 0x2029 || n == 0x202F ||
  n == 0x205F || n == 0x3000

/-- Go `strings.TrimSpace`: leading and trailing white space removed. -/
def TrimSpace (s : String) : String :=
  ⟨((s.data.dropWhile isSpace).reverse.dropWhile isSpace).reverse⟩

/-- The scan of `strings.Replace` with a non-empty `old` and `n = -1`: the
counter is the number of characters of a matched occurrence still to skip. -/
def replaceScan (old new : List Char) : Nat → List Char → List Char
  | _, [] => []
  | k + 1, _ :: s => replaceScan old new k s
  | 0, c :: s =>
    if startsWith old (c :: s) then new ++ replaceScan old new (old.length - 1) s
    else c :: replaceScan old new 0 s

/-- Go `strings.Replace(s, old, new, -1)`: every non-overlapping occurrence of
`old`, from the left, is replaced by `new`; an empty `old` matches before every
character and at the end. -/
def Replace (s old new : String) : String :=
  if old.data = [] then ⟨new.data ++ s.data.flatMap (fun c => c :: new.data)⟩
  else ⟨replaceScan old.data new.data 0 s.data⟩

end strings

/-! ## Maps -/

/-- A Go `map[string]string`. -/
abbrev GoMap := List (String × String)

/-- The map read `m[k]` with its presence flag. -/
def mapGet : GoMap → String → Option String
  | [], _ => none
  | (k', v) :: m, k => if k' = k then some v else mapGet m k

/-- The map write `m[k] = v`. -/
def mapSet : GoMap → String → String → GoMap
  | [], k, v => [(k, v)]
  | (k', v') :: m, k, v => if k' = k then (k, v) :: m else (k', v') :: mapSet m k v

/-- The keys of a map, in iteration order. -/
def mapKeys (m : GoMap) : List String := m.map Prod.fst

/-! ## The template engine -/

/-- A compiled template, seen through `Execute`: the rendered output for a
binding map, or `none` when execution fails. -/
abbrev Template := GoMap → Option String

/-- Go `text/template`: `Parse left right text` compiles `text` with the
delimiter pair `left`, `right`, or fails with `none`. -/
structure Engine where
  Parse : String → String → String → Option Template

/-- The opening delimiter of the primary convention. -/
def openBrace : String := "\x7b\x7b"

/-- The closing delimiter of the primary convention. -/
def closeBrace : String := "\x7d\x7d"

/-- The regular expressions of the two resolvers, an opening delimiter `d d`
followed by one character other than the field marker `.`, run by
`FindStringSubmatch`: the leftmost match as a one-element list, or no
element when nothing matches. -/
def findOpen (d : Char) : List Char → List String
  | a :: b :: c :: s =>
    if a = d ∧ b = d ∧ c ≠ '.' then [⟨[a, b, c]⟩] else findOpen d (b :: c :: s)
  | _ => []

/-- The statements that put the key `original` into the binding map. -/
def ensureOriginal (data : GoMap) : GoMap :=
  if (mapGet data "original").isSome then data else mapSet data "original" ""

/-- The tail of both resolvers, from `template.Must` on: execute the template
and fall back on `format` when execution fails. -/
def executeOr (t : Template) (format : String) (data : GoMap) : String :=
  match t data with
  | none => format
  | some out => out

/-- The function `ResolveVariable` (lines 165-203): the returned string and the
binding map after the call.  The escape pass assigns to `format`, and the
later `return format` statements return the assigned text. -/
def ResolveVariable (eng : Engine) (format : String) (data : GoMap) : String × GoMap :=
  if strings.TrimSpace format = "" then (format, data)
  else
    let data := ensureOriginal data
    match eng.Parse openBrace closeBrace format with
    | some realFormat => (executeOr realFormat format data, data)
    | none =>
      let found := findOpen '\x7b' format.data
      let format := found.foldl
        (fun format m =>
          strings.Replace format m (strings.Replace m openBrace "\x7b\x7b\"\x7b\x7b\"\x7d\x7d"))
        format
      match eng.Parse openBrace closeBrace format with
      | none => (format, data)
      | some realFormat => (executeOr realFormat format data, data)

/-- The function `AltResolveVariable` (lines 206-244): the returned string and
the binding map after the call.  The first compilation sets the delimiters
`[[`, `]]`; the second one (line 230) does not, and runs with the default
pair. -/
def AltResolveVariable (eng : Engine) (format : String) (data : GoMap) : String × GoMap :=
  if strings.TrimSpace format = "" then (format, data)
  else
    let parsed := eng.Parse "[[" "]]" format
    let data := ensureOriginal data
    match parsed with
    | some realFormat => (executeOr realFormat format data, data)
    | none =>
      let found := findOpen '[' format.data
      let format := found.foldl
        (fun format m => strings.Replace format m (strings.Replace m "[[" "[[\"[[\"]]"))
        format
      match eng.Parse openBrace closeBrace format with
      | none => (format, data)
      | some realFormat => (executeOr realFormat format data, data)

/-- A small engine for closed examples: a text without the opening delimiter
is a template that renders to itself, every other text is rejected. -/
def literalEngine : Engine where
  Parse := fun left _ text =>
    if strings.Contains text left then none else some (fun _ => some text)

/-! ## The selectors: `path` and `path/filepath` (Unix) -/

namespace path

/-- The elements of a path: the pieces between the separators `/`. -/
def splitSlash : List Char → List (List Char)
  | [] => [[]]
  | c :: s =>
    if c = '/' then [] :: splitSlash s
    else
      match splitSlash s with
      | [] => [[c]]
      | e :: es => (c :: e) :: es

/-- The elements of a path written back with `/` between them. -/
def joinSlash : List (List Char) → List Char
  | [] => []
  | [e] => e
  | e :: es => e ++ '/' :: joinSlash es

/-- One round of the loop of `Clean` on a path element that is neither empty
nor `.`; `out` is the output written so far, last element first.  A `..`
removes the element before it, is dropped at the root, and is kept when a
relative path has nothing left to remove. -/
def cleanStep (rooted : Bool) (out : List (List Char)) (e : List Char) : List (List Char) :=
  if e = ['.', '.'] then
    match out with
    | [] => if rooted then [] else [e]
    | top :: below => if top = ['.', '.'] then e :: top :: below else below
  else e :: out

/-- Whether a path starts at the root. -/
def isRooted (p : List Char) : Bool := p.head? = some '/'

/-- The path elements that `Clean` processes: the empty elements and the
elements `.` are skipped. -/
def elems (p : List Char) : List (List Char) :=
  (splitSlash p).filter (fun e => e ≠ [] ∧ e ≠ ['.'])

/-- The string that `Clean` returns for the output `out` (last element
first): the elements joined by `/` after the root, and `.` when a relative
path has no element left. -/
def render (rooted : Bool) (out : List (List Char)) : List Char :=
  let body := joinSlash out.reverse
  if rooted then '/' :: body else if body = [] then ['.'] else body

/-- Go `path.Clean` on the characters of a path. -/
def cleanChars (p : List Char) : List Char :=
  render (isRooted p) ((elems p).foldl (cleanStep (isRooted p)) [])

/-- Go `path.Clean`: the shortest path equivalent to `p`. -/
def Clean (p : String) : String := ⟨cleanChars p.data⟩

/-- Go `path.Join` of two elements: empty elements are ignored, the others
are put together with `/` and the result is cleaned. -/
def Join (a b : String) : String :=
  if a = "" then (if b = "" then "" else Clean b) else Clean (a ++ "/" ++ b)

/-- An element that `Clean` writes: not empty, not `.`, without `/`. -/
def Valid (e : List Char) : Prop := e ≠ [] ∧ e ≠ ['.'] ∧ '/' ∉ e

/-- The characters of `/.*`. -/
def slashDotStar : List Char := ['/', '.', '*']

end path

namespace filepath

/-- Go `filepath.IsAbs`. -/
def IsAbs (p : String) : Bool := path.isRooted p.data

/-- Go `filepath.Abs`; `wd` is the result of `os.Getwd`, `none` when it fails,
and then so does `Abs`. -/
def Abs (wd : Option String) (p : String) : Option String :=
  if IsAbs p then some (path.Clean p)
  else
    match wd with
    | none => none
    | some wd => some (path.Join wd p)

/-- Go `filepath.Base`: the last element of the path, trailing separators
removed first. -/
def Base (p : String) : String :=
  if p = "" then "."
  else
    let stripped := p.data.reverse.dropWhile (fun c => c = '/')
    let last := (stripped.takeWhile (fun c => c ≠ '/')).reverse
    if last = [] then "/" else ⟨last⟩

/-- Go `filepath.Dir`: everything up to the last separator, cleaned. -/
def Dir (p : String) : String :=
  path.Clean ⟨(p.data.reverse.dropWhile (fun c => c ≠ '/')).reverse⟩

end filepath

/-! ## The collaborators of the selector -/

/-- What the selector reads from outside the file: `utils.NormalizePath`,
`utils.FileExists`, `utils.FolderExists`, `utils.GetFileNames`, `os.Getwd`
(`none` when it fails), `regexp.Compile` (the compiled expression seen
through `MatchString`, `none` when the pattern does not compile) and
`database.SelectSign`. -/
structure Sys where
  NormalizePath : String → String
  FileExists : String → Bool
  FolderExists : String → Bool
  GetFileNames : String → String → List String
  Getwd : Option String
  Compile : String → Option (String → Bool)
  databaseSelectSign : String → List String

/-- The helper `funk.UniqString`: `seen` is the set of values met so far, and
a value is kept the first time it is met. -/
def uniqScan : List String → List String → List String
  | _, [] => []
  | seen, v :: a => if v ∈ seen then uniqScan seen a else v :: uniqScan (v :: seen) a

/-- The helper `funk.UniqString`: the values of `a` in the order of their first
occurrence, each once. -/
def UniqString (a : List String) : List String := uniqScan [] a

/-! ## `SingleSign` and `SelectSign` -/

/-- The loop of `SingleSign` over `rawSigns`; `Signs` is the list built so
far.  When `regexp.Compile` fails, `r` is nil and `r.MatchString` stops the
program: the result is `none`. -/
def matchSigns (sys : Sys) (baseSelect : String) : List String → List String → Option (List String)
  | [], Signs => some Signs
  | signFile :: rawSigns, Signs =>
    let baseSign := filepath.Base signFile
    if baseSign.utf8ByteSize = 1 ∧ baseSign = "*" then
      matchSigns sys baseSelect rawSigns (Signs ++ [signFile])
    else
      match sys.Compile baseSelect with
      | none =>
        let _Signs := if strings.Contains signFile baseSelect then Signs ++ [signFile] else Signs
        none
      | some r =>
        if r baseSign then matchSigns sys baseSelect rawSigns (Signs ++ [signFile])
        else matchSigns sys baseSelect rawSigns Signs

/-- The function `SingleSign` (lines 37-77); `none` is the panic of the
loop. -/
def SingleSign (sys : Sys) (signName : String) : Option (List String) :=
  let signName := sys.NormalizePath signName
  if strings.HasSuffix signName ".yaml" && !strings.Contains signName "*" then
    some (if sys.FileExists signName then [signName] else [])
  else
    let signName :=
      if sys.FolderExists signName then path.Join (path.Clean signName) ".*" else signName
    if strings.Contains signName "*" && strings.Contains signName "/" then
      let asbPath := (filepath.Abs sys.Getwd signName).getD ""
      let baseSelect := filepath.Base signName
      let rawSigns := sys.GetFileNames (filepath.Dir asbPath) "yaml"
      matchSigns sys baseSelect rawSigns []
    else some []

/-- The function `SelectSign` (lines 21-34); `none` is the panic of
`SingleSign`. -/
def SelectSign (sys : Sys) (signName : String) : Option (List String) :=
  if signName = "**" then some (sys.databaseSelectSign "")
  else
    match SingleSign sys (strings.TrimSpace signName) with
    | none => none
    | some signs =>
      let Signs := if signs.length > 0 then [] ++ signs else []
      some (UniqString Signs)

/-! ## The field resolvers -/

/-- The loop of `ResolveDetection` and `AltResolveDetection` with the resolver
`resolve`: the resolved list and the binding map after the loop. -/
def detectionLoop (resolve : String → GoMap → String × GoMap) :
    List String → GoMap → List String × GoMap
  | [], target => ([], target)
  | detect :: detections, target =>
    let r := resolve detect target
    let rest := detectionLoop resolve detections r.2
    (r.1 :: rest.1, rest.2)

/-- The function `ResolveDetection` (lines 112-118). -/
def ResolveDetection (eng : Engine) (detections : List String) (target : GoMap) :
    List String × GoMap :=
  detectionLoop (ResolveVariable eng) detections target

/-- The function `AltResolveDetection` (lines 121-127). -/
def AltResolveDetection (eng : Engine) (detections : List String) (target : GoMap) :
    List String × GoMap :=
  detectionLoop (AltResolveVariable eng) detections target

/-- The inner loop of the header resolvers over the entries of one map
`head`; `realHeader` is the map built so far. -/
def headLoop (resolve : String → GoMap → String × GoMap) :
    GoMap → GoMap → GoMap → GoMap × GoMap
  | [], realHeader, target => (realHeader, target)
  | (key, value) :: head, realHeader, target =>
    let realKey := resolve key target
    let realVal := resolve value realKey.2
    headLoop resolve head (mapSet realHeader realKey.1 realVal.1) realVal.2

/-- The outer loop of the header resolvers. -/
def headerLoop (resolve : String → GoMap → String × GoMap) :
    List GoMap → GoMap → List GoMap × GoMap
  | [], target => ([], target)
  | head :: headers, target =>
    let realHeader := headLoop resolve head [] target
    let rest := headerLoop resolve headers realHeader.2
    (realHeader.1 :: rest.1, rest.2)

/-- The function `ResolveHeader` (lines 130-145). -/
def ResolveHeader (eng : Engine) (headers : List GoMap) (target : GoMap) :
    List GoMap × GoMap :=
  headerLoop (ResolveVariable eng) headers target

/-- The function `AltResolveHeader` (lines 148-162). -/
def AltResolveHeader (eng : Engine) (headers : List GoMap) (target : GoMap) :
    List GoMap × GoMap :=
  headerLoop (AltResolveVariable eng) headers target

/-- The fields of `libs.Request` that `AltResolveRequest` uses. -/
structure Request where
  Target : GoMap
  Values : List GoMap
  URL : String
  Body : String
  Headers : List GoMap
  Detections : List String
  Generators : List String
  Middlewares : List String

/-- The first test of the loop of `AltResolveRequest`: the value holds a
field reference of the primary convention. -/
def hasPrimaryRef (v : String) : Bool :=
  strings.Contains v "\x7b\x7b." && strings.Contains v closeBrace

/-- The second test of the loop of `AltResolveRequest`: the value is taken
for a call expression. -/
def looksLikeCall (v : String) : Bool :=
  strings.Contains v "(" && strings.Contains v ")"

/-- The first statement of the loop of `AltResolveRequest`: the value after
it, and the binding map after it. -/
def resolvedValue (eng : Engine) (target : GoMap) (v : String) : String × GoMap :=
  if hasPrimaryRef v then ResolveVariable eng v target else (v, target)

/-- The body of the loop of `AltResolveRequest` over the pairs of a map of
`req.Values`: the binding map after the pair `(k, v)`.  `RunVariables` is the
variable executor. -/
def resolveValue (eng : Engine) (RunVariables : String → List String) (target : GoMap)
    (kv : String × String) : GoMap :=
  let k := kv.1
  let r := resolvedValue eng target kv.2
  let v := r.1
  let target := r.2
  if looksLikeCall v then
    match RunVariables v with
    | [] => target
    | first :: _ => mapSet target k first
  else mapSet target k v

/-- The function `AltResolveRequest` (lines 80-109): the request after the
call. -/
def AltResolveRequest (eng : Engine) (RunVariables : String → List String) (req : Request) :
    Request :=
  let target :=
    req.Values.foldl (fun target value => value.foldl (resolveValue eng RunVariables) target)
      req.Target
  let url := AltResolveVariable eng req.URL target
  let body := AltResolveVariable eng req.Body url.2
  let headers := AltResolveHeader eng req.Headers body.2
  let detections := AltResolveDetection eng req.Detections headers.2
  let generators := AltResolveDetection eng req.Generators detections.2
  let middlewares := AltResolveDetection eng req.Middlewares generators.2
  { Target := middlewares.2, Values := req.Values, URL := url.1, Body := body.1,
    Headers := headers.1, Detections := detections.1, Generators := generators.1,
    Middlewares := middlewares.1 }

/-! ## Systems and texts of the closed examples -/

/-- A regular-expression compiler for closed examples.  It knows one pattern
that compiles, `.*`, which matches every string, and rejects every other
pattern; the examples give it `*` and `[*`, which `regexp.Compile` rejects
too. -/
def dotStarCompile (pattern : String) : Option (String → Bool) :=
  if pattern = ".*" then some (fun _ => true) else none

/-- A system for closed examples: the working directory is `/w`, the
directory `/w/sigs` holds the signature files `a.yaml` and `b.yaml`, paths
are left as they are by normalization, and no other file or directory
exists. -/
def sigsSys : Sys where
  NormalizePath := fun p => p
  FileExists := fun p => p = "/w/sigs/a.yaml" || p = "/w/sigs/b.yaml"
  FolderExists := fun p => p = "sigs" || p = "/w/sigs"
  GetFileNames := fun dir _ => if dir = "/w/sigs" then ["/w/sigs/a.yaml", "/w/sigs/b.yaml"] else []
  Getwd := some "/w"
  Compile := dotStarCompile
  databaseSelectSign := fun _ => ["/w/sigs/a.yaml", "/w/sigs/a.yaml"]

/-- A system for closed examples with the working directory `/w` and the
directories `.` (that is `/w`), `sigs.yaml`, `nest` and `nest/.*`, which
hold the signature files `/w/sigs.yaml/a.yaml`, `/w/nest/b.yaml` and
`/w/nest/.*/c.yaml`.  `FileExists` answers yes for a directory as well, and
the listing of a directory goes through its subdirectories. -/
def dirSys : Sys where
  NormalizePath := fun p => p
  FileExists := fun p => p = "." || p = "sigs.yaml" || p = "nest" || p = "nest/.*"
  FolderExists := fun p => p = "." || p = "sigs.yaml" || p = "nest" || p = "nest/.*"
  GetFileNames := fun dir _ =>
    if dir = "/w" then ["/w/sigs.yaml/a.yaml", "/w/nest/b.yaml", "/w/nest/.*/c.yaml"]
    else if dir = "/w/sigs.yaml" then ["/w/sigs.yaml/a.yaml"]
    else if dir = "/w/nest" then ["/w/nest/b.yaml", "/w/nest/.*/c.yaml"]
    else if dir = "/w/nest/.*" then ["/w/nest/.*/c.yaml"]
    else []
  Getwd := some "/w"
  Compile := dotStarCompile
  databaseSelectSign := fun _ => []

/-- A system for closed examples in which normalization writes the home
directory `/home/u` for a leading `~`, and the file `/home/u/a.yaml` exists
(`FileExists` normalizes its argument). -/
def homeSys : Sys where
  NormalizePath := fun p => if p = "~/a.yaml" then "/home/u/a.yaml" else p
  FileExists := fun p => p = "~/a.yaml" || p = "/home/u/a.yaml"
  FolderExists := fun _ => false
  GetFileNames := fun _ _ => []
  Getwd := some "/w"
  Compile := dotStarCompile
  databaseSelectSign := fun _ => []

/-- The text `{{x {{y`. -/
def twoStrays : String := "\x7b\x7bx \x7b\x7by"

/-- The text `{{"{{"}}x {{y`: `twoStrays` after the escape pass. -/
def twoStraysEscaped : String := "\x7b\x7b\"\x7b\x7b\"\x7d\x7dx \x7b\x7by"

/-! ## Statements about the header resolvers -/

/-- A resolver is steady at `t0` when, run on `t0` or on `t0` with the key
`original` ensured, it leaves one of these two maps behind and returns what
it returns on `t0`. -/
def Steady (resolve : String → GoMap → String × GoMap) (t0 : GoMap) : Prop :=
  ∀ s t, (t = t0 ∨ t = ensureOriginal t0) →
    ((resolve s t).2 = t0 ∨ (resolve s t).2 = ensureOriginal t0) ∧
      (resolve s t).1 = (resolve s t0).1

/-- The map that the inner header loop builds from `acc`, with every key and
value resolved by `f`. -/
def rebuilt (f : String → String) (head : GoMap) (acc : GoMap) : GoMap :=
  head.foldl (fun acc kv => mapSet acc (f kv.1) (f kv.2)) acc

/-- The statement of claim C6 for the header loop of a resolver. -/
def HeaderShape (resolve : String → GoMap → String × GoMap) (headers : List GoMap)
    (target : GoMap) (out : List GoMap) : Prop :=
  out.length = headers.length ∧
  ∀ (i : Nat) (head : GoMap), headers[i]? = some head →
    ∃ realHeader, out[i]? = some realHeader ∧
      (∀ j, j ∈ mapKeys realHeader ↔ ∃ key ∈ mapKeys head, j = (resolve key target).1) ∧
      ((head.map (fun kv => (resolve kv.1 target).1)).Nodup →
        ∀ kv ∈ head,
          mapGet realHeader (resolve kv.1 target).1 = some (resolve kv.2 target).1)

/-! ## Maps: reading after writing -/

theorem mapGet_mapSet_same (m : GoMap) (k v : String) : mapGet (mapSet m k v) k = some v := by
  induction m with
  | nil => simp [mapSet, mapGet]
  | cons p m ih =>
    obtain ⟨k', v'⟩ := p
    by_cases h : k' = k
    · simp [mapSet, mapGet, h]
    · simp [mapSet, mapGet, h, ih]

theorem mapGet_mapSet_other (m : GoMap) (k v j : String) (h : j ≠ k) :
    mapGet (mapSet m k v) j = mapGet m j := by
  induction m with
  | nil => simp [mapSet, mapGet, Ne.symm h]
  | cons p m ih =>
    obtain ⟨k', v'⟩ := p
    by_cases hk : k' = k
    · subst hk
      simp [mapSet, mapGet, Ne.symm h]
    · by_cases hj : k' = j
      · subst hj
        simp [mapSet, mapGet, h]
      · simp [mapSet, mapGet, hk, hj, ih]

theorem mapGet_ensureOriginal (data : GoMap) :
    mapGet (ensureOriginal data) "original" = some ((mapGet data "original").getD "") := by
  unfold ensureOriginal
  cases h : mapGet data "original" with
  | none => simp [mapGet_mapSet_same]
  | some v => simp [h]

theorem mapGet_ensureOriginal_other (data : GoMap) (k : String) (h : k ≠ "original") :
    mapGet (ensureOriginal data) k = mapGet data k := by
  unfold ensureOriginal
  split
  · rfl
  · exact mapGet_mapSet_other data "original" "" k h

theorem ensureOriginal_idem (data : GoMap) :
    ensureOriginal (ensureOriginal data) = ensureOriginal data := by
  have h := mapGet_ensureOriginal data
  generalize ensureOriginal data = e at h
  unfold ensureOriginal
  simp [h]

/-! ## The binding map after a resolver call -/

theorem ResolveVariable_snd (eng : Engine) (format : String) (data : GoMap) :
    (ResolveVariable eng format data).2 =
      if strings.TrimSpace format = "" then data else ensureOriginal data := by
  unfold ResolveVariable
  split
  · rfl
  · dsimp only
    split
    · rfl
    · split <;> rfl

theorem AltResolveVariable_snd (eng : Engine) (format : String) (data : GoMap) :
    (AltResolveVariable eng format data).2 =
      if strings.TrimSpace format = "" then data else ensureOriginal data := by
  unfold AltResolveVariable
  split
  · rfl
  · dsimp only
    split
    · rfl
    · split <;> rfl

/-- Claim C9.  For a text that is not blank, after `ResolveVariable` and after
`AltResolveVariable` the binding map holds the key `original`, with the empty
string when the key was absent and with its old value otherwise, and every
other key reads as before; for a blank text both return the text and the map
as they were. -/
theorem resolvers_original_frame (eng : Engine) (format : String) (data : GoMap) :
    (strings.TrimSpace format ≠ "" →
      (mapGet (ResolveVariable eng format data).2 "original"
          = some ((mapGet data "original").getD "") ∧
        ∀ k, k ≠ "original" → mapGet (ResolveVariable eng format data).2 k = mapGet data k) ∧
      (mapGet (AltResolveVariable eng format data).2 "original"
          = some ((mapGet data "original").getD "") ∧
        ∀ k, k ≠ "original" →
          mapGet (AltResolveVariable eng format data).2 k = mapGet data k)) ∧
    (strings.TrimSpace format = "" →
      ResolveVariable eng format data = (format, data) ∧
      AltResolveVariable eng format data = (format, data)) := by
  constructor
  · intro h
    rw [ResolveVariable_snd, AltResolveVariable_snd]
    simp only [h, if_false]
    exact ⟨⟨mapGet_ensureOriginal data, fun k hk => mapGet_ensureOriginal_other data k hk⟩,
      ⟨mapGet_ensureOriginal data, fun k hk => mapGet_ensureOriginal_other data k hk⟩⟩
  · intro h
    simp [ResolveVariable, AltResolveVariable, h]

/-- Witness for `resolvers_original_frame`: the text `[[x` with the bindings
`name ↦ v`, and the blank text of two spaces. -/
theorem resolvers_original_frame_witness :
    (mapGet (ResolveVariable literalEngine "[[x" [("name", "v")]).2 "original" = some "" ∧
      mapGet (AltResolveVariable literalEngine "[[x" [("name", "v")]).2 "name" = some "v") ∧
    AltResolveVariable literalEngine "  " [("name", "v")] = ("  ", [("name", "v")]) :=
  ⟨⟨((resolvers_original_frame literalEngine "[[x" [("name", "v")]).1 (by decide)).1.1,
      ((resolvers_original_frame literalEngine "[[x" [("name", "v")]).1 (by decide)).2.2
        "name" (by decide)⟩,
    ((resolvers_original_frame literalEngine "  " [("name", "v")]).2 (by decide)).2⟩

/-! ## The escape pass of the resolvers -/

/-- Claim C1.  `ResolveVariable` on the text `{{x {{y`, for every engine that
rejects this text and rejects the text `{{"{{"}}x {{y` that the escape pass
makes of it (as `text/template` does): the second compilation fails and the
call returns the text of the escape pass, not the text it was given. -/
theorem ResolveVariable_returns_escaped_text (eng : Engine) (data : GoMap)
    (h1 : eng.Parse openBrace closeBrace twoStrays = none)
    (h2 : eng.Parse openBrace closeBrace twoStraysEscaped = none) :
    (ResolveVariable eng twoStrays data).1 = twoStraysEscaped ∧
      (ResolveVariable eng twoStrays data).1 ≠ twoStrays := by
  have hblank : strings.TrimSpace twoStrays ≠ "" := by decide
  have hfmt : (findOpen '\x7b' twoStrays.data).foldl
      (fun format m =>
        strings.Replace format m (strings.Replace m openBrace "\x7b\x7b\"\x7b\x7b\"\x7d\x7d"))
      twoStrays = twoStraysEscaped := by rfl
  have h : (ResolveVariable eng twoStrays data).1 = twoStraysEscaped := by
    unfold ResolveVariable
    simp only [hblank, if_false, h1, hfmt, h2]
  rw [h]
  exact ⟨rfl, by decide⟩

/-- Witness for `ResolveVariable_returns_escaped_text`: the literal engine and
the empty binding map. -/
theorem ResolveVariable_returns_escaped_text_witness :
    (ResolveVariable literalEngine twoStrays []).1 = twoStraysEscaped ∧
      (ResolveVariable literalEngine twoStrays []).1 ≠ twoStrays :=
  ResolveVariable_returns_escaped_text literalEngine [] (by rfl) (by rfl)

/-- Claim C3.  `AltResolveVariable` on the text `[[x`, for every engine that
rejects `[[x` under the delimiters `[[`, `]]` and that, under the default
delimiters, takes the text `[["[["]]x` as a literal (as `text/template` does):
the call returns `[["[["]]x`, which is neither `[[x` as an escaped literal
renders nor the text it was given. -/
theorem AltResolveVariable_stray_open (eng : Engine) (data : GoMap)
    (h1 : eng.Parse "[[" "]]" "[[x" = none)
    (h2 : ∃ t, eng.Parse openBrace closeBrace "[[\"[[\"]]x" = some t ∧
      ∀ d, t d = some "[[\"[[\"]]x") :
    (AltResolveVariable eng "[[x" data).1 = "[[\"[[\"]]x" ∧
      (AltResolveVariable eng "[[x" data).1 ≠ "[[x" := by
  obtain ⟨t, ht, hexec⟩ := h2
  have hblank : strings.TrimSpace "[[x" ≠ "" := by decide
  have hfmt : (findOpen '[' ("[[x" : String).data).foldl
      (fun format m => strings.Replace format m (strings.Replace m "[[" "[[\"[[\"]]"))
      "[[x" = "[[\"[[\"]]x" := by rfl
  have h : (AltResolveVariable eng "[[x" data).1 = "[[\"[[\"]]x" := by
    unfold AltResolveVariable
    simp only [hblank, if_false, h1, hfmt, ht, executeOr, hexec]
  rw [h]
  exact ⟨rfl, by decide⟩

/-- Witness for `AltResolveVariable_stray_open`: the literal engine and the
empty binding map. -/
theorem AltResolveVariable_stray_open_witness :
    (AltResolveVariable literalEngine "[[x" []).1 = "[[\"[[\"]]x" ∧
      (AltResolveVariable literalEngine "[[x" []).1 ≠ "[[x" :=
  AltResolveVariable_stray_open literalEngine [] (by rfl)
    ⟨fun _ => some "[[\"[[\"]]x", by rfl, fun _ => rfl⟩

/-! ## The header resolvers -/

theorem ResolveVariable_fst_ensure (eng : Engine) (format : String) (data : GoMap) :
    (ResolveVariable eng format (ensureOriginal data)).1 = (ResolveVariable eng format data).1 := by
  unfold ResolveVariable
  split
  · rfl
  · simp only [ensureOriginal_idem]

theorem AltResolveVariable_fst_ensure (eng : Engine) (format : String) (data : GoMap) :
    (AltResolveVariable eng format (ensureOriginal data)).1
      = (AltResolveVariable eng format data).1 := by
  unfold AltResolveVariable
  split
  · rfl
  · simp only [ensureOriginal_idem]

theorem ResolveVariable_steady (eng : Engine) (t0 : GoMap) : Steady (ResolveVariable eng) t0 := by
  intro s t ht
  rw [ResolveVariable_snd]
  rcases ht with rfl | rfl
  · refine ⟨?_, rfl⟩
    split
    · exact Or.inl rfl
    · exact Or.inr rfl
  · refine ⟨?_, ResolveVariable_fst_ensure eng s t0⟩
    split
    · exact Or.inr rfl
    · exact Or.inr (ensureOriginal_idem t0)

theorem AltResolveVariable_steady (eng : Engine) (t0 : GoMap) :
    Steady (AltResolveVariable eng) t0 := by
  intro s t ht
  rw [AltResolveVariable_snd]
  rcases ht with rfl | rfl
  · refine ⟨?_, rfl⟩
    split
    · exact Or.inl rfl
    · exact Or.inr rfl
  · refine ⟨?_, AltResolveVariable_fst_ensure eng s t0⟩
    split
    · exact Or.inr rfl
    · exact Or.inr (ensureOriginal_idem t0)

theorem headLoop_steady (resolve : String → GoMap → String × GoMap) (t0 : GoMap)
    (hs : Steady resolve t0) (head : GoMap) :
    ∀ (acc t : GoMap), (t = t0 ∨ t = ensureOriginal t0) →
      (headLoop resolve head acc t).1 = rebuilt (fun s => (resolve s t0).1) head acc ∧
      ((headLoop resolve head acc t).2 = t0 ∨
        (headLoop resolve head acc t).2 = ensureOriginal t0) := by
  induction head with
  | nil => intro acc t ht; exact ⟨rfl, ht⟩
  | cons kv head ih =>
    intro acc t ht
    obtain ⟨key, value⟩ := kv
    have h1 := hs key t ht
    have h2 := hs value (resolve key t).2 h1.1
    have h3 := ih (mapSet acc (resolve key t).1 (resolve value (resolve key t).2).1)
      (resolve value (resolve key t).2).2 h2.1
    rw [h1.2, h2.2] at h3
    simp only [headLoop, rebuilt, List.foldl_cons]
    rw [h1.2, h2.2]
    simpa only [rebuilt] using h3

theorem headerLoop_steady (resolve : String → GoMap → String × GoMap) (t0 : GoMap)
    (hs : Steady resolve t0) (headers : List GoMap) :
    ∀ t, (t = t0 ∨ t = ensureOriginal t0) →
      (headerLoop resolve headers t).1
        = headers.map (fun head => rebuilt (fun s => (resolve s t0).1) head []) := by
  induction headers with
  | nil => intro t _; rfl
  | cons head headers ih =>
    intro t ht
    have h1 := headLoop_steady resolve t0 hs head [] t ht
    simp only [headerLoop, List.map_cons]
    rw [h1.1, ih _ h1.2]

theorem mem_mapKeys_mapSet (m : GoMap) (k v j : String) :
    j ∈ mapKeys (mapSet m k v) ↔ j = k ∨ j ∈ mapKeys m := by
  induction m with
  | nil => simp [mapSet, mapKeys]
  | cons p m ih =>
    obtain ⟨k', v'⟩ := p
    by_cases h : k' = k
    · subst h
      simp [mapSet, mapKeys]
    · have ih' : j ∈ List.map Prod.fst (mapSet m k v) ↔ j = k ∨ j ∈ List.map Prod.fst m := ih
      simp only [mapSet, h, if_false, mapKeys, List.map_cons, List.mem_cons, ih']
      tauto

theorem mem_mapKeys_rebuilt (f : String → String) (head : GoMap) :
    ∀ (acc : GoMap) (j : String),
      j ∈ mapKeys (rebuilt f head acc) ↔ j ∈ mapKeys acc ∨ ∃ key ∈ mapKeys head, j = f key := by
  induction head with
  | nil => intro acc j; simp [rebuilt, mapKeys]
  | cons kv head ih =>
    intro acc j
    have h := ih (mapSet acc (f kv.1) (f kv.2)) j
    simp only [rebuilt, List.foldl_cons] at h ⊢
    rw [h, mem_mapKeys_mapSet]
    simp only [mapKeys, List.map_cons, List.mem_cons, exists_eq_or_imp]
    tauto

theorem mapGet_rebuilt_other (f : String → String) (head : GoMap) :
    ∀ (acc : GoMap) (j : String), (∀ kv ∈ head, f kv.1 ≠ j) →
      mapGet (rebuilt f head acc) j = mapGet acc j := by
  induction head with
  | nil => intro acc j _; rfl
  | cons kv head ih =>
    intro acc j hj
    have h := ih (mapSet acc (f kv.1) (f kv.2)) j
      (fun q hq => hj q (List.mem_cons_of_mem _ hq))
    simp only [rebuilt, List.foldl_cons] at h ⊢
    rw [h]
    exact mapGet_mapSet_other acc _ _ j (Ne.symm (hj kv (List.mem_cons_self _ _)))

theorem mapGet_rebuilt (f : String → String) (head : GoMap) :
    ∀ (acc : GoMap), (head.map (fun kv => f kv.1)).Nodup →
      ∀ kv ∈ head, mapGet (rebuilt f head acc) (f kv.1) = some (f kv.2) := by
  induction head with
  | nil => intro acc _ kv hkv; simp at hkv
  | cons p head ih =>
    intro acc hnd kv hkv
    simp only [List.map_cons, List.nodup_cons, List.mem_map, not_exists, not_and] at hnd
    rcases List.mem_cons.1 hkv with rfl | hmem
    · have h := mapGet_rebuilt_other f head (mapSet acc (f kv.1) (f kv.2)) (f kv.1)
        (fun q hq => hnd.1 q hq)
      simp only [rebuilt, List.foldl_cons] at h ⊢
      rw [h]
      exact mapGet_mapSet_same acc _ _
    · have h := ih (mapSet acc (f p.1) (f p.2)) hnd.2 kv hmem
      simpa only [rebuilt, List.foldl_cons] using h

theorem headerLoop_shape (resolve : String → GoMap → String × GoMap) (headers : List GoMap)
    (target : GoMap) (hs : Steady resolve target) :
    HeaderShape resolve headers target (headerLoop resolve headers target).1 := by
  rw [headerLoop_steady resolve target hs headers target (Or.inl rfl)]
  refine ⟨by simp, ?_⟩
  intro i head hi
  refine ⟨rebuilt (fun s => (resolve s target).1) head [], by simp [hi], ?_, ?_⟩
  · intro j
    rw [mem_mapKeys_rebuilt]
    simp [mapKeys]
  · intro hnd kv hkv
    exact mapGet_rebuilt (fun s => (resolve s target).1) head [] hnd kv hkv

/-- Claim C6.  `AltResolveHeader` and `ResolveHeader` return as many maps as
they are given, in the same order; the keys of the map at index `i` are
exactly the resolved keys of the map given at index `i`; and when these
resolved keys are pairwise distinct, every resolved key holds the resolved
value of its entry. -/
theorem header_resolvers_shape (eng : Engine) (headers : List GoMap) (target : GoMap) :
    HeaderShape (AltResolveVariable eng) headers target (AltResolveHeader eng headers target).1 ∧
    HeaderShape (ResolveVariable eng) headers target (ResolveHeader eng headers target).1 :=
  ⟨headerLoop_shape (AltResolveVariable eng) headers target (AltResolveVariable_steady eng target),
    headerLoop_shape (ResolveVariable eng) headers target (ResolveVariable_steady eng target)⟩

/-- Witness for `header_resolvers_shape`: two header maps and the literal
engine. -/
theorem header_resolvers_shape_witness :
    HeaderShape (AltResolveVariable literalEngine) [[("a", "b")], [("c", "d")]] []
      (AltResolveHeader literalEngine [[("a", "b")], [("c", "d")]] []).1 :=
  (header_resolvers_shape literalEngine [[("a", "b")], [("c", "d")]] []).1

/-! ## The ad-hoc values of a request -/

theorem mem_of_startsWith (c : Char) (sub s : List Char)
    (h : strings.startsWith (c :: sub) s = true) : c ∈ s := by
  cases s with
  | nil => simp [strings.startsWith] at h
  | cons b s =>
    by_cases hb : c = b
    · exact hb ▸ List.mem_cons_self _ _
    · simp [strings.startsWith, hb] at h

theorem mem_of_hasSub (c : Char) (sub s : List Char)
    (h : strings.hasSub (c :: sub) s = true) : c ∈ s := by
  induction s with
  | nil => simp [strings.hasSub, strings.startsWith] at h
  | cons b s ih =>
    simp only [strings.hasSub, Bool.or_eq_true] at h
    rcases h with h | h
    · exact mem_of_startsWith c sub (b :: s) h
    · exact List.mem_cons_of_mem _ (ih h)

theorem TrimSpace_eq_empty (v : String) (h : strings.TrimSpace v = "") :
    ∀ c ∈ v.data, strings.isSpace c = true := by
  have h1 : ((v.data.dropWhile strings.isSpace).reverse.dropWhile strings.isSpace).reverse
      = [] := congrArg String.data h
  have h2 : ∀ c ∈ v.data.dropWhile strings.isSpace, strings.isSpace c = true := by
    intro c hc
    exact (List.dropWhile_eq_nil_iff.1 (List.reverse_eq_nil_iff.1 h1)) c (List.mem_reverse.2 hc)
  have h3 : v.data.dropWhile strings.isSpace = [] := by
    rw [← List.dropWhile_idempotent]
    exact List.dropWhile_eq_nil_iff.2 h2
  exact List.dropWhile_eq_nil_iff.1 h3

theorem hasPrimaryRef_not_blank (v : String) (h : hasPrimaryRef v = true) :
    strings.TrimSpace v ≠ "" := by
  intro hb
  simp only [hasPrimaryRef, Bool.and_eq_true] at h
  have hmem : '\x7b' ∈ v.data := mem_of_hasSub '\x7b' ['\x7b', '.'] v.data h.1
  have := TrimSpace_eq_empty v hb '\x7b' hmem
  exact absurd this (by decide)

theorem resolvedValue_snd (eng : Engine) (target : GoMap) (v : String) :
    (resolvedValue eng target v).2
      = if hasPrimaryRef v = true then ensureOriginal target else target := by
  unfold resolvedValue
  by_cases h : hasPrimaryRef v = true
  · rw [if_pos h, if_pos h, ResolveVariable_snd, if_neg (hasPrimaryRef_not_blank v h)]
  · rw [if_neg h, if_neg h]

/-- Claim C5, as amended.  After the pair `(k, v)` of `req.Values`, with `v`
first resolved by the primary resolver when it holds a primary field
reference: when the value is taken for a call expression and the executor
returns at least one line, `target[k]` is the first line; when the executor
returns no line, nothing is written for the pair: the binding map is `target`
itself when `v` holds no primary field reference, and otherwise `target` with
the key `original` ensured by the resolver, so every key other than `original`
reads as before; when the value is not taken for a call expression,
`target[k]` is the value. -/
theorem resolveValue_target (eng : Engine) (RunVariables : String → List String)
    (target : GoMap) (k v : String) :
    (looksLikeCall (resolvedValue eng target v).1 = true →
      (∀ first rest, RunVariables (resolvedValue eng target v).1 = first :: rest →
        mapGet (resolveValue eng RunVariables target (k, v)) k = some first) ∧
      (RunVariables (resolvedValue eng target v).1 = [] →
        resolveValue eng RunVariables target (k, v) = (resolvedValue eng target v).2 ∧
        resolveValue eng RunVariables target (k, v)
          = (if hasPrimaryRef v = true then ensureOriginal target else target) ∧
        ∀ j, j ≠ "original" →
          mapGet (resolveValue eng RunVariables target (k, v)) j = mapGet target j)) ∧
    (looksLikeCall (resolvedValue eng target v).1 = false →
      mapGet (resolveValue eng RunVariables target (k, v)) k
        = some (resolvedValue eng target v).1) := by
  refine ⟨fun hcall => ⟨?_, ?_⟩, fun hcall => ?_⟩
  · intro first rest hrun
    simp only [resolveValue, hcall, if_true, hrun]
    exact mapGet_mapSet_same _ _ _
  · intro hrun
    have h : resolveValue eng RunVariables target (k, v) = (resolvedValue eng target v).2 := by
      simp only [resolveValue, hcall, if_true, hrun]
    refine ⟨h, h.trans (resolvedValue_snd eng target v), ?_⟩
    intro j hj
    rw [h, resolvedValue_snd]
    split
    · exact mapGet_ensureOriginal_other target j hj
    · rfl
  · simp only [resolveValue, hcall]
    exact mapGet_mapSet_same _ _ _

/-- Witness for `resolveValue_target`: the call expression `f()` with an
executor that answers `out`; the call expressions `f()` and `{{.k}}()` with an
executor that answers nothing, where the second one leaves the key
`original` behind; and the plain value `v`. -/
theorem resolveValue_target_witness :
    mapGet (resolveValue literalEngine (fun _ => ["out", "more"]) [("k", "old")] ("k", "f()")) "k"
        = some "out" ∧
      resolveValue literalEngine (fun _ => []) [("k", "old")] ("k", "f()") = [("k", "old")] ∧
      resolveValue literalEngine (fun _ => []) [("k", "old")] ("k", "\x7b\x7b.k\x7d\x7d()")
        = ensureOriginal [("k", "old")] ∧
      mapGet (resolveValue literalEngine (fun _ => []) [("k", "old")] ("k", "v")) "k"
        = some "v" :=
  ⟨((resolveValue_target literalEngine (fun _ => ["out", "more"]) [("k", "old")] "k" "f()").1
      (by decide)).1 "out" ["more"] rfl,
    (((resolveValue_target literalEngine (fun _ => []) [("k", "old")] "k" "f()").1
      (by decide)).2 rfl).2.1,
    (((resolveValue_target literalEngine (fun _ => []) [("k", "old")] "k"
      "\x7b\x7b.k\x7d\x7d()").1 (by decide)).2 rfl).2.1,
    (resolveValue_target literalEngine (fun _ => []) [("k", "old")] "k" "v").2 (by decide)⟩

/-- Claim C5 as stated fails: the value `f()` is taken for a call expression,
the executor returns no line, and `target[k]` keeps its old value `old`; it is
not overwritten with a first output line. -/
theorem resolveValue_no_output_keeps_target :
    looksLikeCall (resolvedValue literalEngine [("k", "old")] "f()").1 = true ∧
      mapGet (resolveValue literalEngine (fun _ => []) [("k", "old")] ("k", "f()")) "k"
        = some "old" ∧
      ¬ (mapGet (resolveValue literalEngine (fun _ => []) [("k", "old")] ("k", "f()")) "k"
        = ((fun _ => []) (resolvedValue literalEngine [("k", "old")] "f()").1 : List String).head?) := by
  decide

/-! ## `SingleSign`: the literal file and the pattern loop -/

/-- Claim C10, as amended.  When the normalized selector ends in `.yaml` and
holds no `*`, `SingleSign` returns the one-element list of the normalized
selector when it exists on disk and the empty list otherwise; the result is
the same whatever the directory listing would answer. -/
theorem SingleSign_literal_file (sys : Sys) (f : String)
    (hs : strings.HasSuffix (sys.NormalizePath f) ".yaml" = true)
    (hw : strings.Contains (sys.NormalizePath f) "*" = false) :
    SingleSign sys f
        = some (if sys.FileExists (sys.NormalizePath f) then [sys.NormalizePath f] else []) ∧
      ∀ listing : String → String → List String,
        SingleSign { sys with GetFileNames := listing } f = SingleSign sys f := by
  constructor
  · simp [SingleSign, hs, hw]
  · intro listing
    simp [SingleSign, hs, hw]

/-- Witness for `SingleSign_literal_file`: the file `/w/sigs/a.yaml`. -/
theorem SingleSign_literal_file_witness :
    SingleSign sigsSys "/w/sigs/a.yaml" = some ["/w/sigs/a.yaml"] :=
  (SingleSign_literal_file sigsSys "/w/sigs/a.yaml" (by decide) (by decide)).1

/-- Claim C10 as stated fails: the selector `~/a.yaml` ends in `.yaml`, holds
no `*` and exists on disk, and `SingleSign` returns the normalized path
`/home/u/a.yaml`, not the selector. -/
theorem SingleSign_literal_file_normalized :
    strings.HasSuffix "~/a.yaml" ".yaml" = true ∧
      strings.Contains "~/a.yaml" "*" = false ∧
      homeSys.FileExists "~/a.yaml" = true ∧
      SingleSign homeSys "~/a.yaml" = some ["/home/u/a.yaml"] ∧
      SingleSign homeSys "~/a.yaml" ≠ some ["~/a.yaml"] := by
  decide

theorem matchSigns_nil_regexp (sys : Sys) (baseSelect signFile : String)
    (rawSigns Signs : List String)
    (hc : sys.Compile baseSelect = none) (hb : filepath.Base signFile ≠ "*") :
    matchSigns sys baseSelect (signFile :: rawSigns) Signs = none := by
  simp [matchSigns, hb, hc]

theorem SingleSign_nil_regexp (sys : Sys) (signName signFile : String)
    (rawSigns : List String)
    (hf : sys.FolderExists (sys.NormalizePath signName) = false)
    (hstar : strings.Contains (sys.NormalizePath signName) "*" = true)
    (hslash : strings.Contains (sys.NormalizePath signName) "/" = true)
    (hc : sys.Compile (filepath.Base (sys.NormalizePath signName)) = none)
    (hl : sys.GetFileNames
        (filepath.Dir ((filepath.Abs sys.Getwd (sys.NormalizePath signName)).getD "")) "yaml"
      = signFile :: rawSigns)
    (hb : filepath.Base signFile ≠ "*") :
    SingleSign sys signName = none := by
  simp only [SingleSign, hstar, hslash, hf, hl, Bool.not_true, Bool.and_false, Bool.and_self,
    if_true, Bool.false_eq_true, if_false]
  exact matchSigns_nil_regexp sys _ signFile rawSigns [] hc hb

/-- Claim C2.  Let the normalized selector hold a `*` and a `/` and not name
an existing directory, and let its base pattern not compile.  As soon as the
directory listing holds one file, `r.MatchString` runs on the nil expression
and `SingleSign` stops with a panic instead of returning a list. -/
theorem SingleSign_bad_pattern_panics (sys : Sys) (signName signFile : String)
    (rawSigns : List String)
    (hf : sys.FolderExists (sys.NormalizePath signName) = false)
    (hstar : strings.Contains (sys.NormalizePath signName) "*" = true)
    (hslash : strings.Contains (sys.NormalizePath signName) "/" = true)
    (hc : sys.Compile (filepath.Base (sys.NormalizePath signName)) = none)
    (hl : sys.GetFileNames
        (filepath.Dir ((filepath.Abs sys.Getwd (sys.NormalizePath signName)).getD "")) "yaml"
      = signFile :: rawSigns)
    (hb : filepath.Base signFile ≠ "*") :
    SingleSign sys signName = none :=
  SingleSign_nil_regexp sys signName signFile rawSigns hf hstar hslash hc hl hb

/-- Witness for `SingleSign_bad_pattern_panics`: the selector `sigs/[*` and the
directory `/w/sigs` with two signature files. -/
theorem SingleSign_bad_pattern_panics_witness : SingleSign sigsSys "sigs/[*" = none :=
  SingleSign_bad_pattern_panics sigsSys "sigs/[*" "/w/sigs/a.yaml" ["/w/sigs/b.yaml"]
    (by decide) (by decide) (by decide) rfl (by decide) (by decide)

/-- Claim C8.  Let the normalized selector hold a `/`, let its base pattern be
the single wildcard `*`, and let it not name an existing directory.  The loop
tests the base name of the candidate, not the base pattern, against `*`, so a
listed file is not accepted there; `*` does not compile, and as soon as the
directory listing holds one file `SingleSign` stops with a panic instead of
returning the listing. -/
theorem SingleSign_wildcard_panics (sys : Sys) (signName signFile : String)
    (rawSigns : List String)
    (hf : sys.FolderExists (sys.NormalizePath signName) = false)
    (hstar : strings.Contains (sys.NormalizePath signName) "*" = true)
    (hslash : strings.Contains (sys.NormalizePath signName) "/" = true)
    (hbase : filepath.Base (sys.NormalizePath signName) = "*")
    (hc : sys.Compile "*" = none)
    (hl : sys.GetFileNames
        (filepath.Dir ((filepath.Abs sys.Getwd (sys.NormalizePath signName)).getD "")) "yaml"
      = signFile :: rawSigns)
    (hb : filepath.Base signFile ≠ "*") :
    SingleSign sys signName = none ∧
      SingleSign sys signName ≠ some (signFile :: rawSigns) := by
  have h := SingleSign_nil_regexp sys signName signFile rawSigns hf hstar hslash
    (by rw [hbase]; exact hc) hl hb
  rw [h]
  exact ⟨rfl, by simp⟩

/-- Witness for `SingleSign_wildcard_panics`: the selector `sigs/*` and the
directory `/w/sigs` with two signature files. -/
theorem SingleSign_wildcard_panics_witness :
    SingleSign sigsSys "sigs/*" = none ∧
      SingleSign sigsSys "sigs/*" ≠ some ["/w/sigs/a.yaml", "/w/sigs/b.yaml"] :=
  SingleSign_wildcard_panics sigsSys "sigs/*" "/w/sigs/a.yaml" ["/w/sigs/b.yaml"]
    (by decide) (by decide) (by decide) (by decide) rfl (by decide) (by decide)

/-! ## `SelectSign` -/

theorem uniqScan_spec (a : List String) :
    ∀ seen : List String,
      (uniqScan seen a).Nodup ∧ ∀ x ∈ uniqScan seen a, x ∉ seen ∧ x ∈ a := by
  induction a with
  | nil => intro seen; simp [uniqScan]
  | cons v a ih =>
    intro seen
    by_cases hv : v ∈ seen
    · simp only [uniqScan, hv, if_true]
      exact ⟨(ih seen).1, fun x hx => ⟨((ih seen).2 x hx).1,
        List.mem_cons_of_mem _ ((ih seen).2 x hx).2⟩⟩
    · simp only [uniqScan, hv, if_false]
      have h := ih (v :: seen)
      refine ⟨List.nodup_cons.2 ⟨fun hmem => (h.2 v hmem).1 (List.mem_cons_self _ _), h.1⟩, ?_⟩
      intro x hx
      rcases List.mem_cons.1 hx with rfl | hx
      · exact ⟨hv, List.mem_cons_self _ _⟩
      · exact ⟨fun hs => (h.2 x hx).1 (List.mem_cons_of_mem _ hs),
          List.mem_cons_of_mem _ (h.2 x hx).2⟩

theorem UniqString_nodup (a : List String) : (UniqString a).Nodup := (uniqScan_spec a []).1

/-- Claim C4, as amended.  For a selector other than `**`, `SelectSign`
returns what `SingleSign` returns on the trimmed selector with the repeated
paths removed, and a list it returns holds no path twice; for `**` it returns
the list of the default store as it is. -/
theorem SelectSign_nodup (sys : Sys) (signName : String) :
    (signName ≠ "**" →
      SelectSign sys signName
          = (SingleSign sys (strings.TrimSpace signName)).map UniqString ∧
        ∀ Signs, SelectSign sys signName = some Signs → Signs.Nodup) ∧
    SelectSign sys "**" = some (sys.databaseSelectSign "") := by
  refine ⟨fun hne => ?_, by simp [SelectSign]⟩
  have h : SelectSign sys signName
      = (SingleSign sys (strings.TrimSpace signName)).map UniqString := by
    simp only [SelectSign, hne, if_false]
    cases SingleSign sys (strings.TrimSpace signName) with
    | none => rfl
    | some signs =>
      cases signs with
      | nil => rfl
      | cons x xs => simp
  refine ⟨h, fun Signs hS => ?_⟩
  rw [h] at hS
  cases hsingle : SingleSign sys (strings.TrimSpace signName) with
  | none => simp [hsingle] at hS
  | some signs =>
    simp only [hsingle, Option.map_some', Option.some.injEq] at hS
    rw [← hS]
    exact UniqString_nodup signs

/-- Witness for `SelectSign_nodup`: the selector ` sigs ` names the directory
`/w/sigs`, and its two signature files come back once each. -/
theorem SelectSign_nodup_witness :
    SelectSign sigsSys " sigs " = some ["/w/sigs/a.yaml", "/w/sigs/b.yaml"] ∧
      ["/w/sigs/a.yaml", "/w/sigs/b.yaml"].Nodup :=
  ⟨by decide, ((SelectSign_nodup sigsSys " sigs ").1 (by decide)).2 _ (by decide)⟩

/-- Claim C4 as stated fails: the default store lists the path
`/w/sigs/a.yaml` twice, and `SelectSign` on `**` returns it twice. -/
theorem SelectSign_sentinel_repeats :
    SelectSign sigsSys "**" = some ["/w/sigs/a.yaml", "/w/sigs/a.yaml"] ∧
      ¬ (["/w/sigs/a.yaml", "/w/sigs/a.yaml"] : List String).Nodup := by
  decide

/-! ## `path.Clean`: elements -/

namespace path

theorem splitSlash_ne_nil (p : List Char) : splitSlash p ≠ [] := by
  cases p with
  | nil => simp [splitSlash]
  | cons c s =>
    by_cases h : c = '/'
    · simp [splitSlash, h]
    · simp only [splitSlash, h, if_false]
      split <;> simp

theorem splitSlash_append (a b : List Char) :
    splitSlash (a ++ '/' :: b) = splitSlash a ++ splitSlash b := by
  induction a with
  | nil => simp [splitSlash]
  | cons c a ih =>
    by_cases h : c = '/'
    · simp [splitSlash, h, ih]
    · simp only [List.cons_append, splitSlash, h, if_false]
      cases hs : splitSlash a with
      | nil => exact absurd hs (splitSlash_ne_nil a)
      | cons e es =>
        have ih' : splitSlash (a.append ('/' :: b)) = splitSlash a ++ splitSlash b := ih
        rw [ih', hs]
        rfl

theorem splitSlash_no_slash (p : List Char) : ∀ e ∈ splitSlash p, '/' ∉ e := by
  induction p with
  | nil => simp [splitSlash]
  | cons c s ih =>
    by_cases h : c = '/'
    · simp only [splitSlash, h, if_true, List.mem_cons]
      rintro e (rfl | he)
      · simp
      · exact ih e he
    · simp only [splitSlash, h, if_false]
      cases hs : splitSlash s with
      | nil => simp [Ne.symm h]
      | cons e es =>
        rw [hs] at ih
        simp only [List.mem_cons]
        rintro x (rfl | hx)
        · have := ih e (List.mem_cons_self _ _)
          simp [Ne.symm h, this]
        · exact ih x (List.mem_cons_of_mem _ hx)

theorem splitSlash_of_no_slash (e : List Char) (h : '/' ∉ e) : splitSlash e = [e] := by
  induction e with
  | nil => rfl
  | cons c s ih =>
    simp only [List.mem_cons, not_or] at h
    simp [splitSlash, Ne.symm h.1, ih h.2]

theorem splitSlash_joinSlash (l : List (List Char)) (hl : l ≠ [])
    (h : ∀ e ∈ l, '/' ∉ e) : splitSlash (joinSlash l) = l := by
  induction l with
  | nil => exact absurd rfl hl
  | cons e l ih =>
    cases l with
    | nil => simpa [joinSlash] using splitSlash_of_no_slash e (h e (List.mem_cons_self _ _))
    | cons e' l =>
      simp only [joinSlash]
      rw [splitSlash_append, splitSlash_of_no_slash e (h e (List.mem_cons_self _ _)),
        ih (by simp) (fun x hx => h x (List.mem_cons_of_mem _ hx))]
      rfl

theorem elems_valid (p : List Char) : ∀ e ∈ elems p, Valid e := by
  intro e he
  simp only [elems, List.mem_filter, decide_eq_true_eq] at he
  exact ⟨he.2.1, he.2.2, splitSlash_no_slash p e he.1⟩

theorem elems_append (a b : List Char) : elems (a ++ '/' :: b) = elems a ++ elems b := by
  simp [elems, splitSlash_append]

theorem elems_joinSlash (l : List (List Char)) (h : ∀ e ∈ l, Valid e) :
    elems (joinSlash l) = l := by
  cases l with
  | nil => simp [elems, joinSlash, splitSlash]
  | cons e l =>
    unfold elems
    rw [splitSlash_joinSlash (e :: l) (by simp) (fun x hx => (h x hx).2.2)]
    rw [List.filter_eq_self]
    intro x hx
    simp [(h x hx).1, (h x hx).2.1]

/-! ## `path.Clean`: the output stack -/

theorem cleanStep_of_ne (r : Bool) (out : List (List Char)) (e : List Char)
    (h : e ≠ ['.', '.']) : cleanStep r out e = e :: out := by
  simp [cleanStep, h]

theorem cleanStep_pop (r : Bool) (top : List Char) (below : List (List Char))
    (h : top ≠ ['.', '.']) : cleanStep r (top :: below) ['.', '.'] = below := by
  simp [cleanStep, h]

theorem cleanStep_mem (r : Bool) (out : List (List Char)) (c e : List Char)
    (h : e ∈ cleanStep r out c) : e ∈ out ∨ e = c := by
  unfold cleanStep at h
  split at h
  · cases out with
    | nil =>
      cases r <;> simp at h
      exact Or.inr h
    | cons top below =>
      simp only at h
      split at h
      · rcases List.mem_cons.1 h with h | h
        · exact Or.inr h
        · exact Or.inl h
      · exact Or.inl (List.mem_cons_of_mem _ h)
  · rcases List.mem_cons.1 h with h | h
    · exact Or.inr h
    · exact Or.inl h

theorem foldl_cleanStep_mem (r : Bool) (es : List (List Char)) :
    ∀ (out : List (List Char)) (e : List Char),
      e ∈ es.foldl (cleanStep r) out → e ∈ out ∨ e ∈ es := by
  induction es with
  | nil => intro out e h; exact Or.inl h
  | cons c es ih =>
    intro out e h
    rcases ih (cleanStep r out c) e h with h | h
    · rcases cleanStep_mem r out c e h with h | h
      · exact Or.inl h
      · exact Or.inr (h ▸ List.mem_cons_self _ _)
    · exact Or.inr (List.mem_cons_of_mem _ h)

theorem foldl_cleanStep_valid (r : Bool) (p : List Char) :
    ∀ e ∈ (elems p).foldl (cleanStep r) [], Valid e := by
  intro e he
  rcases foldl_cleanStep_mem r (elems p) [] e he with h | h
  · simp at h
  · exact elems_valid p e h

theorem foldl_cleanStep_relative (r : Bool) (es : List (List Char)) :
    ∀ out : List (List Char),
      (es.foldl (cleanStep false) []).reverse.foldl (cleanStep r) out
        = es.foldl (cleanStep r) out := by
  induction es using List.reverseRecOn with
  | nil => intro out; rfl
  | append_singleton es c ih =>
    intro out
    simp only [List.foldl_append, List.foldl_cons, List.foldl_nil]
    rw [← ih out]
    generalize es.foldl (cleanStep false) [] = N
    by_cases hc : c = ['.', '.']
    · subst hc
      cases N with
      | nil => simp [cleanStep]
      | cons top below =>
        by_cases ht : top = ['.', '.']
        · subst ht
          simp [cleanStep, List.foldl_append]
        · rw [cleanStep_pop false top below ht]
          simp only [List.reverse_cons, List.foldl_append, List.foldl_cons, List.foldl_nil]
          rw [cleanStep_of_ne r _ top ht, cleanStep_pop r top _ ht]
    · rw [cleanStep_of_ne false N c hc]
      simp only [List.reverse_cons, List.foldl_append, List.foldl_cons, List.foldl_nil]

theorem foldl_cleanStep_rooted_clear (es : List (List Char)) :
    ∀ out : List (List Char), (∀ e ∈ out, e ≠ ['.', '.']) →
      ∀ e ∈ es.foldl (cleanStep true) out, e ≠ ['.', '.'] := by
  induction es with
  | nil => intro out h; exact h
  | cons c es ih =>
    intro out h
    apply ih
    intro e he
    by_cases hc : c = ['.', '.']
    · subst hc
      cases out with
      | nil => simp [cleanStep] at he
      | cons top below =>
        rw [cleanStep_pop true top below (h top (List.mem_cons_self _ _))] at he
        exact h e (List.mem_cons_of_mem _ he)
    · rw [cleanStep_of_ne true out c hc] at he
      rcases List.mem_cons.1 he with rfl | he
      · exact hc
      · exact h e he

theorem foldl_cleanStep_push (r : Bool) (l : List (List Char)) :
    ∀ out : List (List Char), (∀ e ∈ l, e ≠ ['.', '.']) →
      l.foldl (cleanStep r) out = l.reverse ++ out := by
  induction l with
  | nil => intro out _; rfl
  | cons c l ih =>
    intro out h
    simp only [List.foldl_cons]
    rw [cleanStep_of_ne r out c (h c (List.mem_cons_self _ _)),
      ih _ (fun e he => h e (List.mem_cons_of_mem _ he))]
    simp

theorem foldl_cleanStep_idem (r : Bool) (es : List (List Char)) :
    (es.foldl (cleanStep r) []).reverse.foldl (cleanStep r) [] = es.foldl (cleanStep r) [] := by
  cases r with
  | false => exact foldl_cleanStep_relative false es []
  | true =>
    rw [foldl_cleanStep_push true _ []
      (fun e he => foldl_cleanStep_rooted_clear es [] (by simp) e (List.mem_reverse.1 he))]
    simp

/-! ## `path.Clean`: the returned string -/

theorem joinSlash_eq_nil (l : List (List Char)) (h : ∀ e ∈ l, e ≠ [])
    (hj : joinSlash l = []) : l = [] := by
  cases l with
  | nil => rfl
  | cons e l =>
    exfalso
    have he := h e (List.mem_cons_self _ _)
    cases l with
    | nil => exact he (by simpa [joinSlash] using hj)
    | cons e' l => simp [joinSlash] at hj

theorem joinSlash_head (e : List Char) (l : List (List Char)) (he : e ≠ []) :
    (joinSlash (e :: l)).head? = e.head? := by
  cases e with
  | nil => exact absurd rfl he
  | cons c e => cases l <;> simp [joinSlash]

theorem joinSlash_concat (l : List (List Char)) (e : List Char) (hl : l ≠ []) :
    joinSlash (l ++ [e]) = joinSlash l ++ '/' :: e := by
  induction l with
  | nil => exact absurd rfl hl
  | cons a l ih =>
    cases l with
    | nil => simp [joinSlash]
    | cons b l =>
      have h := ih (by simp)
      show a ++ '/' :: joinSlash (b :: l ++ [e]) = (a ++ '/' :: joinSlash (b :: l)) ++ '/' :: e
      rw [h]
      simp

theorem isRooted_render (r : Bool) (out : List (List Char)) (h : ∀ e ∈ out, Valid e) :
    isRooted (render r out) = r := by
  cases r with
  | true => simp [render, isRooted]
  | false =>
    simp only [render, Bool.false_eq_true, if_false]
    split
    · simp [isRooted]
    · cases hr : out.reverse with
      | nil => simp [isRooted, joinSlash]
      | cons e l =>
        have hv : Valid e := h e (List.mem_reverse.1 (hr ▸ List.mem_cons_self _ _))
        have hh := joinSlash_head e l hv.1
        cases e with
        | nil => exact absurd rfl hv.1
        | cons c e =>
          have hc : c ≠ '/' := fun hc => hv.2.2 (hc ▸ List.mem_cons_self _ _)
          simp only [isRooted, hh, List.head?_cons, Option.some.injEq, hc, decide_False]

theorem elems_render (r : Bool) (out : List (List Char)) (h : ∀ e ∈ out, Valid e) :
    elems (render r out) = out.reverse := by
  have hv : ∀ e ∈ out.reverse, Valid e := fun e he => h e (List.mem_reverse.1 he)
  cases r with
  | true =>
    simp only [render, if_true]
    have := elems_append [] (joinSlash out.reverse)
    simp only [List.nil_append] at this
    rw [this, elems_joinSlash _ hv]
    simp [elems, splitSlash]
  | false =>
    simp only [render, Bool.false_eq_true, if_false]
    split
    · rename_i hj
      rw [joinSlash_eq_nil _ (fun e he => (hv e he).1) hj]
      simp [elems, splitSlash]
    · exact elems_joinSlash _ hv

theorem render_ne_nil (r : Bool) (out : List (List Char)) : render r out ≠ [] := by
  cases r with
  | true => simp [render]
  | false =>
    simp only [render, Bool.false_eq_true, if_false]
    split
    · simp
    · assumption

theorem cleanChars_ne_nil (p : List Char) : cleanChars p ≠ [] := render_ne_nil _ _

theorem isRooted_cleanChars (p : List Char) : isRooted (cleanChars p) = isRooted p :=
  isRooted_render _ _ (foldl_cleanStep_valid _ p)

theorem elems_cleanChars (p : List Char) :
    elems (cleanChars p) = ((elems p).foldl (cleanStep (isRooted p)) []).reverse :=
  elems_render _ _ (foldl_cleanStep_valid _ p)

theorem isRooted_append (a b : List Char) (ha : a ≠ []) : isRooted (a ++ b) = isRooted a := by
  cases a with
  | nil => exact absurd rfl ha
  | cons c a => simp [isRooted]

theorem cleanChars_idem (p : List Char) : cleanChars (cleanChars p) = cleanChars p := by
  have h1 := isRooted_cleanChars p
  have h2 := elems_cleanChars p
  generalize hq : cleanChars p = q at h1 h2
  unfold cleanChars
  rw [h1, h2, foldl_cleanStep_idem, ← hq]
  rfl

theorem cleanChars_append_left (n b : List Char) (hn : n ≠ []) :
    cleanChars (cleanChars n ++ '/' :: b) = cleanChars (n ++ '/' :: b) := by
  unfold cleanChars
  rw [isRooted_append _ _ hn]
  have h1 : isRooted (render (isRooted n) ((elems n).foldl (cleanStep (isRooted n)) []) ++ '/' :: b)
      = isRooted n := by
    rw [isRooted_append _ _ (render_ne_nil _ _)]
    exact isRooted_cleanChars n
  rw [h1, elems_append, elems_append]
  have h2 := elems_cleanChars n
  unfold cleanChars at h2
  rw [h2, List.foldl_append, List.foldl_append, foldl_cleanStep_idem]

theorem cleanChars_append_right (w p : List Char) (hw : w ≠ []) (hp : isRooted p = false) :
    cleanChars (w ++ '/' :: cleanChars p) = cleanChars (w ++ '/' :: p) := by
  have h2 := elems_cleanChars p
  rw [hp] at h2
  unfold cleanChars
  rw [isRooted_append _ _ hw, isRooted_append _ _ hw, elems_append, elems_append]
  have h3 : elems (render (isRooted p) ((elems p).foldl (cleanStep (isRooted p)) []))
      = ((elems p).foldl (cleanStep false) []).reverse := h2
  rw [h3, List.foldl_append, List.foldl_append, foldl_cleanStep_relative]

theorem cleanChars_dotStar (n : List Char) (hdot : cleanChars n ≠ ['.']) :
    ∃ Y, cleanChars (n ++ slashDotStar) = Y ++ slashDotStar := by
  have hn : n ≠ [] := by
    rintro rfl
    exact hdot (by decide)
  have he : elems ['.', '*'] = [['.', '*']] := by decide
  have hstep : ∀ out, cleanStep (isRooted n) out ['.', '*'] = ['.', '*'] :: out :=
    fun out => cleanStep_of_ne _ out _ (by decide)
  have hc : cleanChars (n ++ slashDotStar)
      = render (isRooted n) (['.', '*'] :: (elems n).foldl (cleanStep (isRooted n)) []) := by
    unfold cleanChars slashDotStar
    rw [isRooted_append _ _ hn, elems_append, he, List.foldl_append]
    simp only [List.foldl_cons, List.foldl_nil, hstep]
  rw [hc]
  generalize hst : (elems n).foldl (cleanStep (isRooted n)) [] = st
  have hclean : cleanChars n = render (isRooted n) st := by unfold cleanChars; rw [hst]
  cases hr : isRooted n with
  | true =>
    cases hs : st.reverse with
    | nil => exact ⟨[], by simp [render, hs, joinSlash, slashDotStar]⟩
    | cons a l =>
      refine ⟨'/' :: joinSlash (a :: l), ?_⟩
      simp only [render, if_true, List.reverse_cons, hs]
      rw [joinSlash_concat _ _ (by simp)]
      simp [slashDotStar]
  | false =>
    cases hs : st.reverse with
    | nil =>
      exfalso
      apply hdot
      rw [hclean, hr]
      simp [render, hs, joinSlash]
    | cons a l =>
      refine ⟨joinSlash (a :: l), ?_⟩
      simp only [render, Bool.false_eq_true, if_false, List.reverse_cons, hs]
      rw [joinSlash_concat _ _ (by simp)]
      simp [slashDotStar]

end path

/-! ## `SingleSign` on a directory -/

theorem hasSub_append_right (sub a b : List Char) (h : strings.hasSub sub b = true) :
    strings.hasSub sub (a ++ b) = true := by
  induction a with
  | nil => exact h
  | cons c a ih => simp [strings.hasSub, ih]

theorem dotStar_shape (s : String) (Y : List Char) (h : s.data = Y ++ path.slashDotStar) :
    strings.Contains s "*" = true ∧ strings.Contains s "/" = true ∧
      filepath.Base s = ".*" ∧ strings.HasSuffix s ".yaml" = false := by
  refine ⟨?_, ?_, ?_, ?_⟩
  · unfold strings.Contains
    rw [h]
    exact hasSub_append_right _ _ _ (by decide)
  · unfold strings.Contains
    rw [h]
    exact hasSub_append_right _ _ _ (by decide)
  · have hne : s ≠ "" := by
      intro hs
      rw [hs] at h
      cases Y <;> simp [path.slashDotStar] at h
    unfold filepath.Base
    rw [if_neg hne]
    simp only [h, path.slashDotStar, List.reverse_append, List.reverse_cons, List.reverse_nil,
      List.nil_append, List.cons_append]
    simp [List.dropWhile, List.takeWhile]
  · unfold strings.HasSuffix
    rw [h]
    simp [path.slashDotStar, strings.startsWith]

theorem Clean_data (p : String) : (path.Clean p).data = path.cleanChars p.data := rfl

theorem Clean_ne_empty (p : String) : path.Clean p ≠ "" := by
  intro h
  have := congrArg String.data h
  exact path.cleanChars_ne_nil p.data this

theorem Join_Clean_dotStar (n : String) (hn : n ≠ "") :
    path.Join (path.Clean n) ".*" = path.Clean (n ++ "/.*") := by
  have hd : n.data ≠ [] := fun h => hn (String.ext h)
  unfold path.Join
  rw [if_neg (Clean_ne_empty n)]
  apply String.ext
  simp only [Clean_data, String.data_append, List.append_assoc]
  exact path.cleanChars_append_left n.data ['.', '*'] hd

theorem Abs_Clean (wd : Option String) (p : String) (hp : p ≠ "") :
    filepath.Abs wd (path.Clean p) = filepath.Abs wd p := by
  have hr : filepath.IsAbs (path.Clean p) = filepath.IsAbs p := path.isRooted_cleanChars p.data
  have hidem : path.Clean (path.Clean p) = path.Clean p :=
    String.ext (path.cleanChars_idem p.data)
  unfold filepath.Abs
  rw [hr]
  cases hab : filepath.IsAbs p with
  | true => simp [hidem]
  | false =>
    cases wd with
    | none => rfl
    | some w =>
      simp only [Bool.false_eq_true, if_false, Option.some.injEq]
      unfold path.Join
      by_cases hw : w = ""
      · simp [hw, hp, Clean_ne_empty, hidem]
      · rw [if_neg hw, if_neg hw]
        apply String.ext
        simp only [Clean_data, String.data_append, List.append_assoc]
        have hwd : w.data ≠ [] := fun h => hw (String.ext h)
        exact path.cleanChars_append_right w.data p.data hwd hab

/-- Claim C7, as amended.  Let `d` name an existing directory, let its
normalized form not be a literal signature file (it does not end in `.yaml`,
or it holds a `*`), let it not clean to the current directory `.`, let
`/.*` under it not be an existing directory, and let normalization go through
the appended `/.*`.  Then `SingleSign` on `d` is `SingleSign` on `d` followed by
`/.*`. -/
theorem SingleSign_directory (sys : Sys) (d : String)
    (hdir : sys.FolderExists (sys.NormalizePath d) = true)
    (hnorm : sys.NormalizePath (d ++ "/.*") = sys.NormalizePath d ++ "/.*")
    (hlit : (strings.HasSuffix (sys.NormalizePath d) ".yaml"
      && !strings.Contains (sys.NormalizePath d) "*") = false)
    (hdot : path.Clean (sys.NormalizePath d) ≠ ".")
    (hnest : sys.FolderExists (sys.NormalizePath d ++ "/.*") = false) :
    SingleSign sys d = SingleSign sys (d ++ "/.*") := by
  generalize hn : sys.NormalizePath d = n at hdir hnorm hlit hdot hnest
  have hne : n ≠ "" := by
    rintro rfl
    exact hdot (by decide)
  have hne2 : n ++ "/.*" ≠ "" := by
    intro h
    have := congrArg String.data h
    simp at this
  have hdot' : path.cleanChars n.data ≠ ['.'] := fun h => hdot (String.ext h)
  obtain ⟨Y, hY⟩ := path.cleanChars_dotStar n.data hdot'
  have hY' : (path.Clean (n ++ "/.*")).data = Y ++ path.slashDotStar := by
    rw [Clean_data, String.data_append]
    exact hY
  have h1 := dotStar_shape (path.Clean (n ++ "/.*")) Y hY'
  have h2 := dotStar_shape (n ++ "/.*") n.data (by rw [String.data_append]; rfl)
  unfold SingleSign
  simp only [hn, hnorm, hlit, hdir, hnest, if_true, Bool.false_eq_true, if_false,
    Join_Clean_dotStar n hne, h1.1, h1.2.1, h1.2.2.1, h2.1, h2.2.1, h2.2.2.1, h2.2.2.2,
    Bool.and_self, Bool.false_and, Abs_Clean sys.Getwd (n ++ "/.*") hne2]

/-- Witness for `SingleSign_directory`: the directory `sigs` of `/w`. -/
theorem SingleSign_directory_witness :
    SingleSign sigsSys "sigs" = SingleSign sigsSys ("sigs" ++ "/.*") ∧
      SingleSign sigsSys "sigs" = some ["/w/sigs/a.yaml", "/w/sigs/b.yaml"] :=
  ⟨SingleSign_directory sigsSys "sigs" (by decide) (by decide) (by decide) (by decide)
    (by decide), by decide⟩

/-- Claim C7 as stated fails, three times over.  The existing directory
`sigs.yaml` is taken for a literal file, and `SingleSign` returns the
directory itself.  The existing directory `.` is rewritten to `.*`, which
holds no `/`, and `SingleSign` returns nothing.  The existing directory
`nest` holds a directory `.*`, and `SingleSign` on `nest/.*` lists that one.
In all three cases `SingleSign` on the directory followed by `/.*` returns
something else. -/
theorem SingleSign_directory_differs :
    (dirSys.FolderExists "sigs.yaml" = true ∧
      SingleSign dirSys "sigs.yaml" = some ["sigs.yaml"] ∧
      SingleSign dirSys ("sigs.yaml" ++ "/.*") = some ["/w/sigs.yaml/a.yaml"]) ∧
    (dirSys.FolderExists "." = true ∧
      SingleSign dirSys "." = some [] ∧
      SingleSign dirSys ("." ++ "/.*")
        = some ["/w/sigs.yaml/a.yaml", "/w/nest/b.yaml", "/w/nest/.*/c.yaml"]) ∧
    (dirSys.FolderExists "nest" = true ∧
      SingleSign dirSys "nest" = some ["/w/nest/b.yaml", "/w/nest/.*/c.yaml"] ∧
      SingleSign dirSys ("nest" ++ "/.*") = some ["/w/nest/.*/c.yaml"]) := by
  decide

end Jaeles
